import Mathlib

/-!
Shallow embedding of `pingstat.py` (maubot/pingstat), a maubot plugin that
records ping/pong latency samples in a table and serves aggregated
statistics.  Python numbers are modelled as `Int` (the stored millisecond
values) and `Rat` (Python `float` results of `/`, `statistics.median` and
`round`; the float arithmetic performed by the source on these values is
exact division/rounding, modelled exactly by rationals).  The geometric
mean (`math.exp`/`math.log`) is modelled over `Real`; the `ValueError`
that `math.log` raises on a non-positive argument is modelled by the
`Option` result of the aggregation: `none` models the exception escaping
`get_room_data`.  Python dicts are modelled as insertion-ordered
association lists, Python's stable `sorted` as a stable insertion sort.
-/

section PingStat

attribute [local semireducible] Rat.mul Rat.inv Rat.add Rat.sub

/-- The `Pong` NamedTuple of the source (also the row layout of the `pongs`
table): `(room_id, ping_id, pong_server, ping_server, receive_diff,
pong_timestamp)`. -/
structure Pong where
  room_id : String
  ping_id : String
  pong_server : String
  ping_server : String
  receive_diff : Int
  pong_timestamp : Int
deriving DecidableEq

/-- Millisecond constant: `SECOND = 1000`. -/
def SECOND : Int := 1000

/-- Millisecond constant: `MINUTE = 60 * SECOND`. -/
def MINUTE : Int := 60 * SECOND

/-- Millisecond constant: `HOUR = 60 * MINUTE`. -/
def HOUR : Int := 60 * MINUTE

/-- Millisecond constant: `DAY = 24 * HOUR`. -/
def DAY : Int := 24 * HOUR

/-- Millisecond constant: `WEEK = 7 * DAY`. -/
def WEEK : Int := 7 * DAY

/-! ## Duration formatter (`plural`, `prettify_diff`) -/

/-- Floor of a rational, computed on the normalized representation
(`Rat.den` is positive, so flooring the integer division of numerator by
denominator is the mathematical floor).  Used instead of `Int.floor` so
that concrete evaluations reduce in the kernel. -/
def ratFloor (q : ℚ) : ℤ := Int.fdiv q.num q.den

/-- Python's `round(q)` (banker's rounding): nearest integer, ties go to the
even integer. -/
def roundHalfEven (q : ℚ) : ℤ :=
  let f : ℤ := ratFloor q
  let frac : ℚ := q - f
  if frac < 1 / 2 then f
  else if 1 / 2 < frac then f + 1
  else if f % 2 = 0 then f else f + 1

/-- Renders the rational `n / 10` the way Python prints a one-decimal float:
sign, integer part, `"."`, one decimal digit (e.g. `-50 ↦ "-5.0"`). -/
def fmtTenths (n : ℤ) : String :=
  let sign := if n < 0 then "-" else ""
  let m := n.natAbs
  let ip := toString (m / 10)
  let dp := toString (m % 10)
  sign ++ ip ++ "." ++ dp

/-- The source's `plural(num, unit, decimals)`: rounds `num` to `decimals`
decimals (`none` meaning Python's `round(num)`, an integer) and appends the
unit, pluralized unless the rounded value equals 1.  The source only ever
passes `decimals=1` or omits it, so the `some` branch models `decimals=1`
(the only decimal width the rendering is required for). -/
def plural (num : ℚ) (unit : String) (decimals : Option Nat) : String :=
  match decimals with
  | none =>
    let n := roundHalfEven num
    if n = 1 then s!"{n} {unit}" else s!"{n} {unit}s"
  | some _ =>
    let n := roundHalfEven (num * 10)
    let r := fmtTenths n
    if n = 10 then s!"{r} {unit}" else s!"{r} {unit}s"

/-- The source's `prettify_diff(diff)`: cascading unit selection on the
absolute magnitude of a signed millisecond duration.  `divmod` on Python
floats is floor division with remainder, modelled by `Int.floor` over `ℚ`;
the string concatenation reproduces the source's f-strings exactly
(including the absence of a space after the hour component's comma in the
day branch). -/
def prettify_diff (diff : ℤ) : String :=
  if |diff| < 10 * 1000 then s!"{diff} ms"
  else if |diff| < 60 * 1000 then plural ((diff : ℚ) / 1000) "second" (some 1)
  else
    let s : ℚ := (diff : ℚ) / 1000
    let minutes : ℤ := ratFloor (s / 60)
    let seconds : ℚ := s - 60 * minutes
    let secStr := plural seconds "second" none
    if |minutes| < 60 then
      let mStr := plural (minutes : ℚ) "minute" none
      s!"{mStr} and {secStr}"
    else
      let hours : ℤ := Int.fdiv minutes 60
      let minutes2 : ℤ := Int.fmod minutes 60
      let mStr := plural (minutes2 : ℚ) "minute" none
      if |hours| < 24 then
        let hStr := plural (hours : ℚ) "hour" none
        s!"{hStr}, {mStr} and {secStr}"
      else
        let days : ℤ := Int.fdiv hours 24
        let hours2 : ℤ := Int.fmod hours 24
        let dStr := plural (days : ℚ) "day" none
        let hStr := plural (hours2 : ℚ) "hour" none
        s!"{dStr}, {hStr},{mStr} and {secStr}"

/-! ## Geometric mean -/

/-- The source's `geomean(data)`:
`math.exp(math.fsum(math.log(elem) for elem in data) / len(data))`.
`math.fsum` is an exact float sum, modelled by the real sum. -/
noncomputable def geomean (data : List ℤ) : ℝ :=
  Real.exp (((data.map (fun e : ℤ => Real.log (e : ℝ))).sum) / (data.length : ℝ))

/-! ## Sample store: `save_pong`'s table as a list of rows, `tombstone`,
`iter_pongs` -/

/-- Primary key of the `pongs` table: the columns `room_id`, `ping_id` and
`pong_server` are declared `primary_key=True` in `start`. -/
def pkey (p : Pong) : String × String × String :=
  (p.room_id, p.ping_id, p.pong_server)

/-- The row rewrite performed by the `tombstone` handler's UPDATE statement:
every row whose `room_id` equals `old` gets `room_id := new`; all other
columns are untouched.  The table's primary key is
`(room_id, ping_id, pong_server)`, so if the reassigned rows would
duplicate a primary key — a migrated `old` row colliding with an existing
`new` row that shares `(ping_id, pong_server)` — the database raises an
integrity error: the statement is aborted and no row is changed, modelled
by `none`.  (On the stores the table can actually hold, whose primary keys
are duplicate-free, the duplicate check on the updated rows is exactly
that per-statement abort.) -/
def rewrite_room (store : List Pong) (old new : String) : Option (List Pong) :=
  let updated := store.map (fun p => if p.room_id = old then { p with room_id := new } else p)
  if (updated.map pkey).Nodup then some updated else none

/-- The `tombstone` event handler's effect on the store: if the event
carries no replacement room (`None`, or the empty string — both falsy in
Python) it returns without touching the store; otherwise it runs the
UPDATE.  When the UPDATE aborts on a primary-key collision the exception
propagates out of the handler and the store is left unchanged. -/
def tombstone (store : List Pong) (room : String) (replacement : Option String) : List Pong :=
  match replacement with
  | none => store
  | some r =>
    if r = "" then store
    else
      match rewrite_room store room r with
      | some updated => updated
      | none => store

/-- The source's `iter_pongs(room_id, max_age, min_age, max_diff, min_diff)`:
selects the rows of `room_id` with
`now - max_age ≤ pong_timestamp ≤ now - min_age` and
`min_diff ≤ receive_diff ≤ max_diff`.  `now` (the wall clock read inside
the function) is passed explicitly. -/
def iter_pongs (store : List Pong) (room_id : String) (now max_age min_age max_diff min_diff : Int) :
    List Pong :=
  store.filter (fun p => decide (p.room_id = room_id ∧
    p.pong_timestamp ≤ now - min_age ∧
    now - max_age ≤ p.pong_timestamp ∧
    p.receive_diff ≤ max_diff ∧
    min_diff ≤ p.receive_diff))

/-! ## Window selector (`_get_min_max_age`) -/

/-- Result of `_get_min_max_age`: the dict `{"min_age": ..., "max_age": ...}`
(milliseconds). -/
structure AgeWindow where
  min_age : Int
  max_age : Int
deriving DecidableEq

/-- One `try: int(request.query[...]) * 1000 except (KeyError, ValueError):
default` block of `_get_min_max_age`.  A missing or non-numeric query
parameter is modelled as `none` and falls back silently to the default. -/
def parse_age (param : Option Int) (default : Int) : Int :=
  match param with
  | some n => n * 1000
  | none => default

/-- The source's `_get_min_max_age(request, max_delta)`: resolves the
`max_age`/`min_age` query parameters (defaults `WEEK` and `0`), then clamps
`max_age` to `min_age + max_delta` when `0 < max_delta < max_age - min_age`. -/
def _get_min_max_age (max_age_param min_age_param : Option Int) (max_delta : Int) : AgeWindow :=
  let max_age := parse_age max_age_param WEEK
  let min_age := parse_age min_age_param 0
  let max_age := if 0 < max_delta ∧ max_delta < max_age - min_age then min_age + max_delta
                 else max_age
  { min_age := min_age, max_age := max_age }

/-! ## Aggregation engine (`get_room_data`)

Python dicts preserve insertion order; they are modelled as association
lists where `updateOrAppend` mirrors `dict.setdefault` followed by in-place
mutation (update keeps the key's position, a new key is appended), and
`dictSet` mirrors `d[k] = v`. -/

/-- Looks up the value stored under key `k` in an association list. -/
def alookup {β : Type} (k : String) : List (String × β) → Option β
  | [] => none
  | (k2, v) :: rest => if k2 = k then some v else alookup k rest

/-- Models `d.setdefault(k, init)` followed by mutating the entry with `f`: if `k`
is present its value `v` becomes `f v` (keeping its position), otherwise
`(k, f init)` is appended. -/
def updateOrAppend {β : Type} (k : String) (init : β) (f : β → β) :
    List (String × β) → List (String × β)
  | [] => [(k, f init)]
  | (k2, v) :: rest =>
    if k2 = k then (k2, f v) :: rest else (k2, v) :: updateOrAppend k init f rest

/-- Models `d[k] = v` on a dict: overwrite in place if present, else append. -/
def dictSet {β : Type} (k : String) (v : β) : List (String × β) → List (String × β)
  | [] => [(k, v)]
  | (k2, v2) :: rest =>
    if k2 = k then (k2, v) :: rest else (k2, v2) :: dictSet k v rest

/-- Accumulator for one `(ping_server, pong_server)` pair during the pong
loop: the running `"sum"` of every matching `receive_diff` (duplicates
included) and the `"diffs"` dict keyed by `ping_id` (last write wins). -/
structure PongServerAcc where
  sum : Int
  diffs : List (String × Int)
deriving DecidableEq

/-- Accumulator for one ping_server: its `"pongs"` dict and the `"pings"`
set of ping_ids (modelled as a first-insertion-ordered duplicate-free
list; the source materializes the set into a list whose order no claim
depends on). -/
structure PingServerAcc where
  pongs : List (String × PongServerAcc)
  pings : List String
deriving DecidableEq

/-- One iteration of the pong loop of `get_room_data`: record the pong's
ping_id and receive_diff under its ping_server / pong_server keys. -/
def addPong (acc : List (String × PingServerAcc)) (p : Pong) : List (String × PingServerAcc) :=
  updateOrAppend p.ping_server { pongs := [], pings := [] }
    (fun psd =>
      { pings := if p.ping_id ∈ psd.pings then psd.pings else psd.pings ++ [p.ping_id],
        pongs := updateOrAppend p.pong_server { sum := 0, diffs := [] }
          (fun qsd => { sum := qsd.sum + p.receive_diff,
                        diffs := dictSet p.ping_id p.receive_diff qsd.diffs }) psd.pongs })
    acc

/-- The whole pong loop: fold `addPong` over the sample sequence. -/
def roomGroups (samples : List Pong) : List (String × PingServerAcc) :=
  samples.foldl addPong []

/-- Stable insertion keyed by a rational: the element is placed before the
first strictly greater key, i.e. after every element of equal key. -/
def stableInsert {α : Type} (key : α → ℚ) (a : α) : List α → List α
  | [] => [a]
  | b :: l => if key a < key b then a :: b :: l else b :: stableInsert key a l

/-- Helper of `stableSort`: inserts the pending elements one by one. -/
def stableSortAux {α : Type} (key : α → ℚ) : List α → List α → List α
  | acc, [] => acc
  | acc, a :: l => stableSortAux key (stableInsert key a acc) l

/-- Python's stable `sorted(..., key=...)` for a rational key: a stable
insertion sort (any two stable sorts by the same key agree, so this models
`sorted` exactly). -/
def stableSort {α : Type} (key : α → ℚ) (l : List α) : List α :=
  stableSortAux key [] l

/-- Models `statistics.median`: middle element of the sorted values for an odd
count, average of the two middle elements for an even count.  The source
only applies it to nonempty lists (every group holds at least one diff);
out-of-range indices default to 0. -/
def median (l : List ℤ) : ℚ :=
  let s := stableSort (fun x : ℤ => (x : ℚ)) l
  let n := s.length
  if n % 2 = 1 then ((s.get? (n / 2)).getD 0 : ℤ)
  else (((s.get? (n / 2 - 1)).getD 0 : ℤ) + ((s.get? (n / 2)).getD 0 : ℤ) : ℚ) / 2

/-- Insertion into a sorted list of strings (for `sorted(...)` over the
pong_server set). -/
def insertStr (a : String) : List String → List String
  | [] => [a]
  | b :: l => if a ≤ b then a :: b :: l else b :: insertStr a l

/-- Models `sorted(...)` over strings, ascending. -/
def sortStrs (l : List String) : List String :=
  l.foldr insertStr []

/-- Traversal (`List.mapM` specialized to `Option`), written out so that its equations
are directly available: the Python loop it models stops with an exception
(`none`) as soon as one element fails. -/
def traverseOpt {α β : Type} (f : α → Option β) : List α → Option (List β)
  | [] => some []
  | a :: l => do
    let b ← f a
    let rest ← traverseOpt f l
    pure (b :: rest)

/-- The published statistics of one `(ping_server, pong_server)` pair: the
`"diffs"` dict survives in the output (only `"sum"` is deleted), plus
`"mean"` and `"median"`.  The `"gmean"` entry is `geomean` of the diff
values; its numeric value lives in `ℝ` (see `PongServerStats.gmean`), and
the `ValueError` raised by `math.log` on a non-positive diff is modelled
by `finalizePair` returning `none`. -/
structure PongServerStats where
  diffs : List (String × Int)
  mean : ℚ
  median : ℚ
deriving DecidableEq

/-- The real-valued `"gmean"` entry of a pair group, defined (as in the
source) over exactly the recorded diff values. -/
noncomputable def PongServerStats.gmean (st : PongServerStats) : ℝ :=
  geomean (st.diffs.map (fun kv => kv.2))

/-- The published statistics of one ping_server: its `"pongs"` dict, the
`"pings"` list, and the union-level `"mean"`/`"median"` (the union-level
`"gmean"` is again `geomean` of the concatenated diffs, modelled on the
side for the same reason as in `PongServerStats`). -/
structure PingServerStats where
  pongs : List (String × PongServerStats)
  pings : List String
  mean : ℚ
  median : ℚ
deriving DecidableEq

/-- Per-pair post-processing (the inner statements of the per-ping_server
loop): `mean = sum / len(diffs)`, `median` of the diff values, and the
`geomean` domain check — `math.log` raises `ValueError` unless every diff
is strictly positive. -/
def finalizePair (q : PongServerAcc) : Option PongServerStats :=
  let vals := q.diffs.map (fun kv => kv.2)
  if vals.all (fun v => decide (0 < v)) then
    some { diffs := q.diffs,
           mean := (q.sum : ℚ) / (q.diffs.length : ℚ),
           median := median vals }
  else none

/-- The per-ping_server loop body: finalize each pair group, then the
union-level statistics over `total_sum` (the raw per-pair sums),
`total_len` (the recorded diff counts) and the concatenated diff values,
with the same `geomean` domain check on the concatenation. -/
def finalizePing (acc : PingServerAcc) : Option PingServerStats := do
  let pongs ← traverseOpt (fun kv => (finalizePair kv.2).map (fun st => (kv.1, st))) acc.pongs
  let total_sum : ℤ := (acc.pongs.map (fun kv => kv.2.sum)).sum
  let total_len : ℕ := (acc.pongs.map (fun kv => kv.2.diffs.length)).sum
  let diffs : List ℤ := (acc.pongs.map (fun kv => kv.2.diffs.map (fun dv => dv.2))).flatten
  if diffs.all (fun v => decide (0 < v)) then
    some { pongs := pongs, pings := acc.pings,
           mean := (total_sum : ℚ) / (total_len : ℚ),
           median := median diffs }
  else none

/-- The whole per-ping_server loop over the grouped data. -/
def finalizeAll (groups : List (String × PingServerAcc)) :
    Option (List (String × PingServerStats)) :=
  traverseOpt (fun kv => (finalizePing kv.2).map (fun st => (kv.1, st))) groups

/-- The dict returned by `get_room_data` minus the `"disclaimer"` entry
(an external room-id keyed lookup with a constant default, carrying no
algorithmic content): the per-ping_server summaries sorted ascending by
median, the room `"mean"` (mean of the per-ping_server means, `0` when
there are no groups), and the sorted distinct `"pongservers"`. -/
structure RoomSummary where
  pings : List (String × PingServerStats)
  mean : ℚ
  pongservers : List String
deriving DecidableEq

/-- The in-memory aggregation of `get_room_data` applied to the sample
sequence produced by `iter_pongs`: group, finalize (`none` models the
`ValueError` escaping when a geometric mean hits a non-positive diff),
sort by median, and assemble the result dict. -/
def aggregate (samples : List Pong) : Option RoomSummary :=
  (finalizeAll (roomGroups samples)).map (fun fs =>
    let sorted := stableSort (fun kv => kv.2.median) fs
    { pings := sorted,
      mean := if 0 < sorted.length
              then ((sorted.map (fun kv => kv.2.mean)).sum) / (sorted.length : ℚ)
              else 0,
      pongservers := sortStrs ((samples.map (fun p => p.pong_server)).dedup) })

/-- The source's `get_room_data(room_id, min_age, max_age)`: runs
`iter_pongs` with the caller's ages and the *default* diff bounds
(`min_diff = 10`, `max_diff = 10 * MINUTE`), then aggregates. -/
def get_room_data (store : List Pong) (room_id : String) (now min_age max_age : Int) :
    Option RoomSummary :=
  aggregate (iter_pongs store room_id now max_age min_age (10 * MINUTE) 10)

/-! ## Spec-side observers and sample vectors used by the claim theorems -/

/-- The store's uniqueness invariant on a sample sequence: no two samples
share the `(ping_server, pong_server, ping_id)` grouping key (the table's
primary key is `(room_id, ping_id, pong_server)` and all samples handed to
one aggregation share the room). -/
abbrev DistinctKeys (samples : List Pong) : Prop :=
  List.Pairwise (fun p q => ¬(p.ping_server = q.ping_server ∧
    p.pong_server = q.pong_server ∧ p.ping_id = q.ping_id)) samples

/-- The subsequence of samples belonging to one
`(ping_server, pong_server)` pair. -/
def pairSamples (ps qs : String) (samples : List Pong) : List Pong :=
  samples.filter (fun p => decide (p.ping_server = ps ∧ p.pong_server = qs))

/-- Sum of the raw `receive_diff`s of a sample sequence (what the `"sum"`
accumulator collects: duplicates included). -/
def rawSum (l : List Pong) : ℤ :=
  (l.map (fun p => p.receive_diff)).sum

/-- The `"diffs"` dict built from a sample sequence: keyed by `ping_id`,
last write wins. -/
def lastWrites (l : List Pong) : List (String × Int) :=
  l.foldl (fun d p => dictSet p.ping_id p.receive_diff d) []

/-- Sum of the recorded (post-dedup) diff values of one pair group. -/
def recordedSum (st : PongServerStats) : ℤ :=
  (st.diffs.map (fun kv => kv.2)).sum

/-- Number of recorded diff values of one pair group. -/
def recordedLen (st : PongServerStats) : ℕ :=
  st.diffs.length

/-- Sum of the recorded diff values across all pair groups of one
ping_server (its union multiset). -/
def pingRecordedSum (st : PingServerStats) : ℤ :=
  (st.pongs.map (fun kv => recordedSum kv.2)).sum

/-- Size of the union diff multiset of one ping_server. -/
def pingRecordedLen (st : PingServerStats) : ℕ :=
  (st.pongs.map (fun kv => recordedLen kv.2)).sum

/-- Test sample: ping_server `"P"` answered by `"Q"` with a 5 ms diff. -/
def pongA : Pong :=
  { room_id := "r", ping_id := "i", pong_server := "Q", ping_server := "P",
    receive_diff := 5, pong_timestamp := 0 }

/-- Test sample: same grouping key as `pongA`, diff 7. -/
def pongB : Pong := { pongA with receive_diff := 7 }

/-- Test sample: same grouping key as `pongA`, non-positive diff. -/
def pongC : Pong := { pongA with receive_diff := -1 }

/-- Test sample: second ping_server `"S"`, diff 40. -/
def pongD : Pong :=
  { room_id := "r", ping_id := "j", pong_server := "Q", ping_server := "S",
    receive_diff := 40, pong_timestamp := 0 }

/-- Test row for the migration claim (diff inside the default scan
bounds). -/
def rowA : Pong :=
  { room_id := "a", ping_id := "i", pong_server := "q", ping_server := "p",
    receive_diff := 50, pong_timestamp := 0 }

/-- Test row with a diff below the default `min_diff = 10` bound. -/
def rowB : Pong :=
  { room_id := "a", ping_id := "k", pong_server := "q", ping_server := "p",
    receive_diff := 5, pong_timestamp := 0 }

/-- Test row under room `"b"` sharing `(ping_id, pong_server)` with `rowA`:
migrating `rowA` to room `"b"` collides with it on the primary key. -/
def rowBcoll : Pong := { rowA with room_id := "b" }

/-- The summary `aggregate` produces for `[pongA]`. -/
def summaryA : RoomSummary :=
  { pings := [("P", { pongs := [("Q", { diffs := [("i", 5)], mean := 5, median := 5 })],
                      pings := ["i"], mean := 5, median := 5 })],
    mean := 5, pongservers := ["Q"] }

/-- The finalized (pre-sort) per-ping_server list for `[pongA, pongD]`. -/
def statsAD : List (String × PingServerStats) :=
  [("P", { pongs := [("Q", { diffs := [("i", 5)], mean := 5, median := 5 })],
           pings := ["i"], mean := 5, median := 5 }),
   ("S", { pongs := [("Q", { diffs := [("j", 40)], mean := 40, median := 40 })],
           pings := ["j"], mean := 40, median := 40 })]

/-- The summary `aggregate` produces for `[pongA, pongD]`. -/
def summaryAD : RoomSummary :=
  { pings := statsAD, mean := 45 / 2, pongservers := ["Q"] }


/-! ## Association-list lemmas -/

theorem alookup_updateOrAppend_self {β : Type} (k : String) (init : β) (f : β → β)
    (l : List (String × β)) :
    alookup k (updateOrAppend k init f l) = some (f ((alookup k l).getD init)) := by
  induction l with
  | nil => simp [alookup, updateOrAppend]
  | cons kv rest ih =>
    obtain ⟨k2, v⟩ := kv
    by_cases h : k2 = k
    · subst h
      simp [alookup, updateOrAppend]
    · simp [alookup, updateOrAppend, h, ih]

theorem alookup_updateOrAppend_ne {β : Type} {k k2 : String} (init : β) (f : β → β)
    (l : List (String × β)) (h : k2 ≠ k) :
    alookup k2 (updateOrAppend k init f l) = alookup k2 l := by
  induction l with
  | nil => simp [alookup, updateOrAppend, Ne.symm h]
  | cons kv rest ih =>
    obtain ⟨k3, v⟩ := kv
    by_cases h3 : k3 = k
    · subst h3
      simp [alookup, updateOrAppend, h, Ne.symm h]
    · simp [alookup, updateOrAppend, h3, ih]

theorem mem_updateOrAppend {β : Type} {k k2 : String} {v : β} {init : β} {f : β → β}
    {l : List (String × β)} (h : (k2, v) ∈ updateOrAppend k init f l) :
    (k2, v) ∈ l ∨ (k2 = k ∧ (v = f init ∨ ∃ v0, (k, v0) ∈ l ∧ v = f v0)) := by
  induction l with
  | nil =>
    simp [updateOrAppend] at h
    exact Or.inr ⟨h.1, Or.inl h.2⟩
  | cons kv rest ih =>
    obtain ⟨k3, v3⟩ := kv
    by_cases h3 : k3 = k
    · subst h3
      simp [updateOrAppend] at h
      rcases h with ⟨hk, hv⟩ | hmem
      · exact Or.inr ⟨hk, Or.inr ⟨v3, by simp, hv⟩⟩
      · exact Or.inl (List.mem_cons_of_mem _ hmem)
    · simp only [updateOrAppend, if_neg h3, List.mem_cons] at h
      rcases h with heq | hmem
      · exact Or.inl (by simp [heq])
      · rcases ih hmem with hl | ⟨hk, hrest⟩
        · exact Or.inl (List.mem_cons_of_mem _ hl)
        · refine Or.inr ⟨hk, ?_⟩
          rcases hrest with hv | ⟨v0, hv0, hv⟩
          · exact Or.inl hv
          · exact Or.inr ⟨v0, List.mem_cons_of_mem _ hv0, hv⟩

theorem keys_updateOrAppend {β : Type} (k : String) (init : β) (f : β → β)
    (l : List (String × β)) :
    (updateOrAppend k init f l).map Prod.fst =
      if k ∈ l.map Prod.fst then l.map Prod.fst else l.map Prod.fst ++ [k] := by
  induction l with
  | nil => simp [updateOrAppend]
  | cons kv rest ih =>
    obtain ⟨k3, v3⟩ := kv
    by_cases h3 : k3 = k
    · subst h3
      simp [updateOrAppend]
    · simp only [updateOrAppend, if_neg h3, List.map_cons, ih]
      by_cases hk : k ∈ rest.map Prod.fst
      · simp [hk, h3]
      · simp [hk, h3, Ne.symm h3]

theorem alookup_eq_none_iff {β : Type} (k : String) (l : List (String × β)) :
    alookup k l = none ↔ k ∉ l.map Prod.fst := by
  induction l with
  | nil => simp [alookup]
  | cons kv rest ih =>
    obtain ⟨k2, v⟩ := kv
    by_cases h : k2 = k
    · subst h
      simp [alookup]
    · simp [alookup, h, ih, Ne.symm h]

theorem mem_of_alookup {β : Type} {k : String} {v : β} {l : List (String × β)}
    (h : alookup k l = some v) : (k, v) ∈ l := by
  induction l with
  | nil => simp [alookup] at h
  | cons kv rest ih =>
    obtain ⟨k2, v2⟩ := kv
    by_cases h2 : k2 = k
    · subst h2
      simp [alookup] at h
      simp [h]
    · simp only [alookup, if_neg h2] at h
      exact List.mem_cons_of_mem _ (ih h)

theorem alookup_of_mem_nodupkeys {β : Type} {k : String} {v : β} {l : List (String × β)}
    (hnd : (l.map Prod.fst).Nodup) (h : (k, v) ∈ l) : alookup k l = some v := by
  induction l with
  | nil => simp at h
  | cons kv rest ih =>
    obtain ⟨k2, v2⟩ := kv
    simp only [List.map_cons, List.nodup_cons] at hnd
    rcases List.mem_cons.mp h with heq | hmem
    · obtain ⟨hk, hv⟩ := Prod.mk.inj heq.symm
      simp [alookup, hk, hv]
    · by_cases h2 : k2 = k
      · subst h2
        exact absurd (List.mem_map_of_mem Prod.fst hmem) hnd.1
      · simpa [alookup, h2] using ih hnd.2 hmem

theorem mem_dictSet {k k2 : String} {v v2 : Int} {d : List (String × Int)}
    (h : (k2, v2) ∈ dictSet k v d) : (k2, v2) ∈ d ∨ (k2, v2) = (k, v) := by
  induction d with
  | nil => simpa [dictSet] using h
  | cons kv rest ih =>
    obtain ⟨k3, v3⟩ := kv
    by_cases h3 : k3 = k
    · subst h3
      simp only [dictSet, if_pos rfl, eq_self_iff_true, if_true, List.mem_cons] at h
      rcases h with heq | hmem
      · obtain ⟨hk, hv⟩ := Prod.mk.inj heq
        exact Or.inr (by simp [hk, hv])
      · exact Or.inl (List.mem_cons_of_mem _ hmem)
    · simp only [dictSet, if_neg h3, List.mem_cons] at h
      rcases h with heq | hmem
      · exact Or.inl (by simp [heq])
      · rcases ih hmem with hd | hkv
        · exact Or.inl (List.mem_cons_of_mem _ hd)
        · exact Or.inr hkv

theorem dictSet_of_not_mem_keys {k : String} {v : Int} {d : List (String × Int)}
    (h : k ∉ d.map Prod.fst) : dictSet k v d = d ++ [(k, v)] := by
  induction d with
  | nil => simp [dictSet]
  | cons kv rest ih =>
    obtain ⟨k2, v2⟩ := kv
    simp only [List.map_cons, List.mem_cons] at h
    push_neg at h
    simp [dictSet, Ne.symm h.1, ih h.2]

/-! ## `traverseOpt` lemmas -/

theorem traverseOpt_isSome {α β : Type} {f : α → Option β} {l : List α}
    (h : ∀ x ∈ l, (f x).isSome) : (traverseOpt f l).isSome := by
  induction l with
  | nil => simp [traverseOpt]
  | cons a rest ih =>
    obtain ⟨b, hb⟩ := Option.isSome_iff_exists.mp (h a (List.mem_cons_self a rest))
    obtain ⟨bs, hbs⟩ := Option.isSome_iff_exists.mp
      (ih (fun x hx => h x (List.mem_cons_of_mem _ hx)))
    simp [traverseOpt, hb, hbs]

theorem traverseOpt_eq_none {α β : Type} {f : α → Option β} {l : List α} {x : α}
    (hx : x ∈ l) (hfx : f x = none) : traverseOpt f l = none := by
  induction l with
  | nil => simp at hx
  | cons a rest ih =>
    rcases List.mem_cons.mp hx with rfl | hmem
    · simp [traverseOpt, hfx]
    · cases hfa : f a with
      | none => simp [traverseOpt, hfa]
      | some b => simp [traverseOpt, hfa, ih hmem]

theorem exists_of_mem_traverseOpt {α β : Type} {f : α → Option β} {l : List α}
    {l2 : List β} (h : traverseOpt f l = some l2) :
    ∀ y ∈ l2, ∃ x ∈ l, f x = some y := by
  induction l generalizing l2 with
  | nil =>
    simp [traverseOpt] at h
    subst h
    simp
  | cons a rest ih =>
    cases hfa : f a with
    | none => simp [traverseOpt, hfa] at h
    | some b =>
      cases hrest : traverseOpt f rest with
      | none => simp [traverseOpt, hfa, hrest] at h
      | some bs =>
        simp [traverseOpt, hfa, hrest] at h
        subst h
        intro y hy
        rcases List.mem_cons.mp hy with rfl | hmem
        · exact ⟨a, List.mem_cons_self a rest, hfa⟩
        · obtain ⟨x, hx, hfx⟩ := ih hrest y hmem
          exact ⟨x, List.mem_cons_of_mem _ hx, hfx⟩

theorem traverseOpt_map_eq {α β γ : Type} {f : α → Option β} {l : List α} {l2 : List β}
    (h : traverseOpt f l = some l2) (g : β → γ) (g2 : α → γ)
    (hg : ∀ x y, f x = some y → g y = g2 x) : l2.map g = l.map g2 := by
  induction l generalizing l2 with
  | nil =>
    simp [traverseOpt] at h
    subst h
    simp
  | cons a rest ih =>
    cases hfa : f a with
    | none => simp [traverseOpt, hfa] at h
    | some b =>
      cases hrest : traverseOpt f rest with
      | none => simp [traverseOpt, hfa, hrest] at h
      | some bs =>
        simp [traverseOpt, hfa, hrest] at h
        subst h
        simp [hg a b hfa, ih hrest]

/-! ## Stable sort lemmas -/

theorem mem_stableInsert {α : Type} (key : α → ℚ) (a x : α) (l : List α) :
    x ∈ stableInsert key a l ↔ x = a ∨ x ∈ l := by
  induction l with
  | nil => simp [stableInsert]
  | cons b rest ih =>
    by_cases hab : key a < key b
    · simp [stableInsert, hab]
    · simp [stableInsert, hab, ih]
      tauto

theorem stableInsert_sorted {α : Type} (key : α → ℚ) (a : α) (l : List α)
    (hl : l.Pairwise (fun x y => key x ≤ key y)) :
    (stableInsert key a l).Pairwise (fun x y => key x ≤ key y) := by
  induction l with
  | nil => simp [stableInsert]
  | cons b rest ih =>
    rcases List.pairwise_cons.mp hl with ⟨hb, hrest⟩
    by_cases hab : key a < key b
    · simp only [stableInsert, if_pos hab]
      refine List.pairwise_cons.mpr ⟨?_, hl⟩
      intro x hx
      rcases List.mem_cons.mp hx with rfl | hmem
      · exact le_of_lt hab
      · exact le_trans (le_of_lt hab) (hb x hmem)
    · simp only [stableInsert, if_neg hab]
      refine List.pairwise_cons.mpr ⟨?_, ih hrest⟩
      intro x hx
      rcases (mem_stableInsert key a x rest).mp hx with rfl | hmem
      · exact le_of_not_lt hab
      · exact hb x hmem

theorem stableInsert_filter {α : Type} (key : α → ℚ) (q : ℚ) (a : α) (l : List α)
    (hl : l.Pairwise (fun x y => key x ≤ key y)) :
    (stableInsert key a l).filter (fun x => decide (key x = q)) =
      l.filter (fun x => decide (key x = q)) ++ if key a = q then [a] else [] := by
  induction l with
  | nil => by_cases ha : key a = q <;> simp [stableInsert, ha]
  | cons b rest ih =>
    rcases List.pairwise_cons.mp hl with ⟨hb, hrest⟩
    by_cases hab : key a < key b
    · simp only [stableInsert, if_pos hab]
      by_cases ha : key a = q
      · have hnil : (b :: rest).filter (fun x => decide (key x = q)) = [] := by
          refine List.filter_eq_nil_iff.mpr ?_
          intro x hx
          have hbx : key b ≤ key x := by
            rcases List.mem_cons.mp hx with rfl | hmem
            · exact le_refl _
            · exact hb x hmem
          have : q < key x := lt_of_lt_of_le (ha ▸ hab) hbx
          simpa using ne_of_gt this
        simp [List.filter_cons, ha, hnil]
      · simp [List.filter_cons, ha]
    · simp only [stableInsert, if_neg hab]
      simp [List.filter_cons, ih hrest]
      by_cases hbq : key b = q <;> simp [hbq]

theorem stableSortAux_sorted_filter {α : Type} (key : α → ℚ) (l acc : List α)
    (hacc : acc.Pairwise (fun x y => key x ≤ key y)) :
    (stableSortAux key acc l).Pairwise (fun x y => key x ≤ key y) ∧
    ∀ q, (stableSortAux key acc l).filter (fun x => decide (key x = q)) =
      acc.filter (fun x => decide (key x = q)) ++ l.filter (fun x => decide (key x = q)) := by
  induction l generalizing acc with
  | nil => simp [stableSortAux, hacc]
  | cons a rest ih =>
    obtain ⟨hs, hf⟩ := ih (stableInsert key a acc) (stableInsert_sorted key a acc hacc)
    refine ⟨hs, fun q => ?_⟩
    rw [show stableSortAux key acc (a :: rest) = stableSortAux key (stableInsert key a acc) rest
      from rfl, hf q, stableInsert_filter key q a acc hacc, List.filter_cons]
    by_cases ha : key a = q <;> simp [ha]

theorem mem_stableSortAux {α : Type} (key : α → ℚ) (l acc : List α) (x : α) :
    x ∈ stableSortAux key acc l ↔ x ∈ acc ∨ x ∈ l := by
  induction l generalizing acc with
  | nil => simp [stableSortAux]
  | cons a rest ih =>
    rw [show stableSortAux key acc (a :: rest) = stableSortAux key (stableInsert key a acc) rest
      from rfl, ih, mem_stableInsert]
    simp
    tauto

theorem stableSort_sorted {α : Type} (key : α → ℚ) (l : List α) :
    (stableSort key l).Pairwise (fun x y => key x ≤ key y) :=
  (stableSortAux_sorted_filter key l [] (by simp)).1

theorem stableSort_filter {α : Type} (key : α → ℚ) (l : List α) (q : ℚ) :
    (stableSort key l).filter (fun x => decide (key x = q)) =
      l.filter (fun x => decide (key x = q)) := by
  have := (stableSortAux_sorted_filter key l [] (by simp)).2 q
  simpa [stableSort] using this

theorem mem_stableSort {α : Type} (key : α → ℚ) (l : List α) (x : α) :
    x ∈ stableSort key l ↔ x ∈ l := by
  have := mem_stableSortAux key l [] x
  simpa [stableSort] using this

/-! ## Grouping lemmas: characterizing `roomGroups` -/

theorem roomGroups_append_single (l : List Pong) (p : Pong) :
    roomGroups (l ++ [p]) = addPong (roomGroups l) p := by
  simp [roomGroups, List.foldl_append]

theorem pairSamples_append_single (ps qs : String) (l : List Pong) (p : Pong) :
    pairSamples ps qs (l ++ [p]) =
      pairSamples ps qs l ++
        (if p.ping_server = ps ∧ p.pong_server = qs then [p] else []) := by
  by_cases h : p.ping_server = ps ∧ p.pong_server = qs <;>
    simp [pairSamples, List.filter_append, h]

theorem rawSum_append_single (l : List Pong) (p : Pong) :
    rawSum (l ++ [p]) = rawSum l + p.receive_diff := by
  simp [rawSum]

theorem lastWrites_append_single (l : List Pong) (p : Pong) :
    lastWrites (l ++ [p]) = dictSet p.ping_id p.receive_diff (lastWrites l) := by
  simp [lastWrites, List.foldl_append]

theorem roomGroups_char (samples : List Pong) (ps : String) :
    (alookup ps (roomGroups samples) = none → ∀ qs, pairSamples ps qs samples = []) ∧
    (∀ a, alookup ps (roomGroups samples) = some a → ∀ qs,
      alookup qs a.pongs =
        if pairSamples ps qs samples = [] then none
        else some { sum := rawSum (pairSamples ps qs samples),
                    diffs := lastWrites (pairSamples ps qs samples) }) := by
  induction samples using List.reverseRecOn with
  | nil => simp [roomGroups, alookup, pairSamples]
  | append_singleton l p ih =>
    rw [roomGroups_append_single]
    by_cases hps : p.ping_server = ps
    · subst hps
      constructor
      · intro hnone
        rw [addPong, alookup_updateOrAppend_self] at hnone
        exact absurd hnone (by simp)
      · intro a ha qs
        rw [addPong, alookup_updateOrAppend_self] at ha
        replace ha := Option.some.inj ha
        subst ha
        rw [pairSamples_append_single]
        by_cases hqs : p.pong_server = qs
        · subst hqs
          have hc : p.ping_server = p.ping_server ∧ p.pong_server = p.pong_server := ⟨rfl, rfl⟩
          rw [if_pos hc]
          dsimp only
          rw [alookup_updateOrAppend_self]
          cases hold : alookup p.ping_server (roomGroups l) with
          | none =>
            have hempty := ih.1 hold p.pong_server
            simp [alookup, hempty, rawSum, lastWrites, dictSet]
          | some a0 =>
            have hpongs := ih.2 a0 hold p.pong_server
            dsimp only [Option.getD_some]
            rw [hpongs]
            by_cases hemp : pairSamples p.ping_server p.pong_server l = []
            · rw [if_pos hemp]
              simp [hemp, rawSum, lastWrites, dictSet]
            · rw [if_neg hemp]
              have hne : ¬(pairSamples p.ping_server p.pong_server l ++ [p] = []) := by simp
              rw [if_neg hne]
              dsimp only [Option.getD_some]
              rw [rawSum_append_single, lastWrites_append_single]
        · have hcond : ¬(p.ping_server = p.ping_server ∧ p.pong_server = qs) := by
            intro hc
            exact hqs hc.2
          rw [if_neg hcond, List.append_nil]
          dsimp only
          rw [alookup_updateOrAppend_ne _ _ _ (fun h => hqs h.symm)]
          cases hold : alookup p.ping_server (roomGroups l) with
          | none =>
            have hempty := ih.1 hold qs
            simp [alookup, hempty]
          | some a0 =>
            have hpongs := ih.2 a0 hold qs
            dsimp only [Option.getD_some]
            exact hpongs
    · have hne : ps ≠ p.ping_server := fun h => hps h.symm
      constructor
      · intro hnone qs
        rw [addPong, alookup_updateOrAppend_ne _ _ _ hne] at hnone
        have hcond : ¬(p.ping_server = ps ∧ p.pong_server = qs) := fun hc => hps hc.1
        rw [pairSamples_append_single, if_neg hcond, List.append_nil]
        exact ih.1 hnone qs
      · intro a ha qs
        rw [addPong, alookup_updateOrAppend_ne _ _ _ hne] at ha
        have hcond : ¬(p.ping_server = ps ∧ p.pong_server = qs) := fun hc => hps hc.1
        rw [pairSamples_append_single, if_neg hcond, List.append_nil]
        exact ih.2 a ha qs

theorem roomGroups_nodupKeys (samples : List Pong) :
    ((roomGroups samples).map Prod.fst).Nodup ∧
    ∀ e ∈ roomGroups samples, ((e.2.pongs).map Prod.fst).Nodup := by
  induction samples using List.reverseRecOn with
  | nil => simp [roomGroups]
  | append_singleton l p ih =>
    rw [roomGroups_append_single, addPong]
    constructor
    · rw [keys_updateOrAppend]
      by_cases hk : p.ping_server ∈ (roomGroups l).map Prod.fst
      · simpa [hk] using ih.1
      · rw [if_neg hk]
        refine List.Nodup.append ih.1 (by simp) ?_
        intro x hx hx2
        simp only [List.mem_singleton] at hx2
        subst hx2
        exact hk hx
    · intro e he
      obtain ⟨k1, v1⟩ := e
      have hpongs : ∀ base : PingServerAcc,
          (base.pongs.map Prod.fst).Nodup →
          ((updateOrAppend p.pong_server { sum := 0, diffs := [] }
            (fun qsd => { sum := qsd.sum + p.receive_diff,
                          diffs := dictSet p.ping_id p.receive_diff qsd.diffs })
            base.pongs).map Prod.fst).Nodup := by
        intro base hbase
        rw [keys_updateOrAppend]
        by_cases hk : p.pong_server ∈ base.pongs.map Prod.fst
        · simpa [hk] using hbase
        · rw [if_neg hk]
          refine List.Nodup.append hbase (by simp) ?_
          intro x hx hx2
          simp only [List.mem_singleton] at hx2
          subst hx2
          exact hk hx
      rcases mem_updateOrAppend he with hmem | ⟨_, hval⟩
      · exact ih.2 (k1, v1) hmem
      · rcases hval with hinit | ⟨v0, hv0, hval⟩
        · subst hinit
          exact hpongs { pongs := [], pings := [] } (by simp)
        · subst hval
          exact hpongs v0 (ih.2 (p.ping_server, v0) hv0)

theorem roomGroups_value_mem (samples : List Pong) :
    ∀ e ∈ roomGroups samples, ∀ qe ∈ e.2.pongs, ∀ kv ∈ qe.2.diffs,
      ∃ p ∈ samples, p.receive_diff = kv.2 := by
  induction samples using List.reverseRecOn with
  | nil => simp [roomGroups]
  | append_singleton l p ih =>
    rw [roomGroups_append_single, addPong]
    intro e he qe hqe kv hkv
    obtain ⟨k1, v1⟩ := e
    obtain ⟨k2, v2⟩ := qe
    obtain ⟨ka, va⟩ := kv
    have hdiffs : ∀ d0 : List (String × Int),
        (∀ kv2 ∈ d0, ∃ p2 ∈ l, p2.receive_diff = kv2.2) →
        (ka, va) ∈ dictSet p.ping_id p.receive_diff d0 →
        ∃ p2 ∈ l ++ [p], p2.receive_diff = (ka, va).2 := by
      intro d0 hd0 hin
      rcases mem_dictSet hin with hold2 | hnew
      · obtain ⟨p2, hp2, hd⟩ := hd0 (ka, va) hold2
        exact ⟨p2, List.mem_append_left _ hp2, hd⟩
      · refine ⟨p, List.mem_append_right _ (by simp), ?_⟩
        have := congrArg Prod.snd hnew
        simpa using this.symm
    have hstep : ∀ base : PingServerAcc,
        (∀ qe2 ∈ base.pongs, ∀ kv2 ∈ qe2.2.diffs, ∃ p2 ∈ l, p2.receive_diff = kv2.2) →
        (k2, v2) ∈ updateOrAppend p.pong_server { sum := 0, diffs := [] }
          (fun qsd => { sum := qsd.sum + p.receive_diff,
                        diffs := dictSet p.ping_id p.receive_diff qsd.diffs })
          base.pongs →
        ∃ p2 ∈ l ++ [p], p2.receive_diff = (ka, va).2 := by
      intro base hbase hmem
      rcases mem_updateOrAppend hmem with hold | ⟨_, hval⟩
      · obtain ⟨p2, hp2, hd⟩ := hbase (k2, v2) hold (ka, va) hkv
        exact ⟨p2, List.mem_append_left _ hp2, hd⟩
      · rcases hval with hinit | ⟨v0, hv0, hval⟩
        · subst hinit
          exact hdiffs [] (by simp) hkv
        · subst hval
          exact hdiffs v0.diffs (fun kv2 hkv2 => hbase (p.pong_server, v0) hv0 kv2 hkv2) hkv
    rcases mem_updateOrAppend he with hold | ⟨_, hval⟩
    · obtain ⟨p2, hp2, hd⟩ := ih (k1, v1) hold (k2, v2) hqe (ka, va) hkv
      exact ⟨p2, List.mem_append_left _ hp2, hd⟩
    · rcases hval with hinit | ⟨v0, hv0, hval⟩
      · subst hinit
        exact hstep { pongs := [], pings := [] } (by simp) hqe
      · subst hval
        exact hstep v0 (fun qe2 hqe2 kv2 hkv2 => ih (p.ping_server, v0) hv0 qe2 hqe2 kv2 hkv2) hqe

/-! ## `lastWrites` lemmas -/

theorem mem_lastWrites (l : List Pong) :
    ∀ kv ∈ lastWrites l, ∃ p ∈ l, p.ping_id = kv.1 ∧ p.receive_diff = kv.2 := by
  induction l using List.reverseRecOn with
  | nil => simp [lastWrites]
  | append_singleton l p ih =>
    rw [lastWrites_append_single]
    intro kv hkv
    rcases mem_dictSet hkv with hold | hnew
    · obtain ⟨p2, hp2, h1, h2⟩ := ih kv hold
      exact ⟨p2, List.mem_append_left _ hp2, h1, h2⟩
    · have h1 := congrArg Prod.fst hnew
      have h2 := congrArg Prod.snd hnew
      simp only [Prod.fst, Prod.snd] at h1 h2
      exact ⟨p, List.mem_append_right _ (by simp), h1.symm, h2.symm⟩

theorem keys_lastWrites_subset (l : List Pong) :
    ∀ k ∈ (lastWrites l).map Prod.fst, k ∈ l.map (fun p => p.ping_id) := by
  intro k hk
  obtain ⟨kv, hkv, hfst⟩ := List.mem_map.mp hk
  obtain ⟨p, hp, h1, _⟩ := mem_lastWrites l kv hkv
  exact List.mem_map.mpr ⟨p, hp, by rw [h1, hfst]⟩

theorem lastWrites_of_nodup (l : List Pong)
    (h : (l.map (fun p => p.ping_id)).Nodup) :
    lastWrites l = l.map (fun p => (p.ping_id, p.receive_diff)) := by
  induction l using List.reverseRecOn with
  | nil => simp [lastWrites]
  | append_singleton l p ih =>
    rw [lastWrites_append_single]
    simp only [List.map_append, List.map_cons, List.map_nil] at h
    have hnd := (List.nodup_append.mp h).1
    have hnotin : p.ping_id ∉ l.map (fun p => p.ping_id) := by
      have := (List.nodup_append.mp h).2.2
      intro hc
      exact this hc (by simp)
    rw [ih hnd]
    have hfresh : p.ping_id ∉ (lastWrites l).map Prod.fst := by
      intro hc
      exact hnotin (keys_lastWrites_subset l _ hc)
    rw [ih hnd] at hfresh
    rw [show (l.map (fun p => (p.ping_id, p.receive_diff))).map Prod.fst =
          l.map (fun p => p.ping_id) from by simp] at hfresh
    rw [dictSet_of_not_mem_keys (by simpa using hfresh)]
    simp

theorem pairSamples_ids_nodup {samples : List Pong} (hnd : DistinctKeys samples)
    (ps qs : String) :
    ((pairSamples ps qs samples).map (fun p => p.ping_id)).Nodup := by
  have hfil : (pairSamples ps qs samples).Pairwise
      (fun p q => ¬(p.ping_server = q.ping_server ∧ p.pong_server = q.pong_server ∧
        p.ping_id = q.ping_id)) :=
    List.Pairwise.filter _ hnd
  have hmem : ∀ x ∈ pairSamples ps qs samples, x.ping_server = ps ∧ x.pong_server = qs := by
    intro x hx
    simpa using List.of_mem_filter hx
  have hids : (pairSamples ps qs samples).Pairwise (fun p q => p.ping_id ≠ q.ping_id) := by
    refine hfil.imp_of_mem ?_
    intro a b ha hb hr hid
    exact hr ⟨(hmem a ha).1.trans (hmem b hb).1.symm,
      (hmem a ha).2.trans (hmem b hb).2.symm, hid⟩
  exact List.Pairwise.map _ (fun a b h => h) hids

/-! ## Recorded-value lemmas under the uniqueness invariant -/

theorem pair_recorded {samples : List Pong} (hnd : DistinctKeys samples) :
    ∀ e ∈ roomGroups samples, ∀ qe ∈ e.2.pongs,
      qe.2.sum = ((qe.2.diffs.map (fun kv => kv.2)).sum) ∧ qe.2.diffs ≠ [] := by
  intro e he qe hqe
  obtain ⟨k1, v1⟩ := e
  obtain ⟨k2, v2⟩ := qe
  have hlook1 : alookup k1 (roomGroups samples) = some v1 :=
    alookup_of_mem_nodupkeys (roomGroups_nodupKeys samples).1 he
  have hlook2 : alookup k2 v1.pongs = some v2 :=
    alookup_of_mem_nodupkeys ((roomGroups_nodupKeys samples).2 (k1, v1) he) hqe
  have hchar := (roomGroups_char samples k1).2 v1 hlook1 k2
  rw [hlook2] at hchar
  by_cases hemp : pairSamples k1 k2 samples = []
  · rw [if_pos hemp] at hchar
    exact absurd hchar (by simp)
  · rw [if_neg hemp] at hchar
    replace hchar := Option.some.inj hchar
    have hids := pairSamples_ids_nodup hnd k1 k2
    have hlw := lastWrites_of_nodup _ hids
    constructor
    · rw [hchar]
      dsimp only
      rw [hlw, List.map_map]
      rfl
    · rw [hchar]
      dsimp only
      rw [hlw]
      simpa using hemp

theorem sample_recorded {samples : List Pong} (hnd : DistinctKeys samples) :
    ∀ p ∈ samples, ∃ a, (p.ping_server, a) ∈ roomGroups samples ∧
      ∃ q, (p.pong_server, q) ∈ a.pongs ∧ (p.ping_id, p.receive_diff) ∈ q.diffs := by
  intro p hp
  have hpair : p ∈ pairSamples p.ping_server p.pong_server samples :=
    List.mem_filter.mpr ⟨hp, by simp⟩
  have hne : pairSamples p.ping_server p.pong_server samples ≠ [] :=
    List.ne_nil_of_mem hpair
  cases hold : alookup p.ping_server (roomGroups samples) with
  | none => exact absurd ((roomGroups_char samples p.ping_server).1 hold p.pong_server) hne
  | some a =>
    have hchar := (roomGroups_char samples p.ping_server).2 a hold p.pong_server
    rw [if_neg hne] at hchar
    refine ⟨a, mem_of_alookup hold,
      ⟨{ sum := rawSum (pairSamples p.ping_server p.pong_server samples),
         diffs := lastWrites (pairSamples p.ping_server p.pong_server samples) },
       mem_of_alookup hchar, ?_⟩⟩
    dsimp only
    rw [lastWrites_of_nodup _ (pairSamples_ids_nodup hnd p.ping_server p.pong_server)]
    exact List.mem_map.mpr ⟨p, hpair, rfl⟩

/-! ## Finalization lemmas -/

theorem finalizePair_of_pos {q : PongServerAcc}
    (h : ∀ kv ∈ q.diffs, (0 : ℤ) < kv.2) :
    finalizePair q = some { diffs := q.diffs,
                            mean := (q.sum : ℚ) / (q.diffs.length : ℚ),
                            median := median (q.diffs.map (fun kv => kv.2)) } := by
  have hall : (q.diffs.map (fun kv => kv.2)).all (fun v => decide (0 < v)) = true := by
    rw [List.all_eq_true]
    intro v hv
    obtain ⟨kv, hkv, hvv⟩ := List.mem_map.mp hv
    simpa [hvv] using h kv hkv
  simp [finalizePair, hall]

theorem finalizePair_none {q : PongServerAcc} {kv : String × Int}
    (hkv : kv ∈ q.diffs) (hle : kv.2 ≤ 0) : finalizePair q = none := by
  have hall : (q.diffs.map (fun kv => kv.2)).all (fun v => decide (0 < v)) = false := by
    rw [List.all_eq_false]
    exact ⟨kv.2, List.mem_map.mpr ⟨kv, hkv, rfl⟩, by simpa using hle⟩
  simp [finalizePair, hall]

theorem finalizePair_some_inv {q : PongServerAcc} {st : PongServerStats}
    (h : finalizePair q = some st) :
    st.diffs = q.diffs ∧ st.mean = (q.sum : ℚ) / (q.diffs.length : ℚ) := by
  by_cases hall : (q.diffs.map (fun kv => kv.2)).all (fun v => decide (0 < v)) = true
  · rw [finalizePair] at h
    simp only [hall, if_true] at h
    replace h := Option.some.inj h
    rw [← h]
    exact ⟨rfl, rfl⟩
  · rw [finalizePair] at h
    simp only [Bool.not_eq_true] at hall
    simp [hall] at h

theorem finalizePing_of_pos {acc : PingServerAcc}
    (h : ∀ qe ∈ acc.pongs, ∀ kv ∈ qe.2.diffs, (0 : ℤ) < kv.2) :
    (finalizePing acc).isSome := by
  have hpairs : ∀ qe ∈ acc.pongs,
      ((fun kv : String × PongServerAcc =>
        (finalizePair kv.2).map (fun st => (kv.1, st))) qe).isSome := by
    intro qe hqe
    have hq := finalizePair_of_pos (h qe hqe)
    simp only [hq]
    simp
  obtain ⟨pongs, hpongs⟩ := Option.isSome_iff_exists.mp (traverseOpt_isSome hpairs)
  have hflat : ((acc.pongs.map (fun kv => kv.2.diffs.map (fun dv => dv.2))).flatten).all
      (fun v => decide (0 < v)) = true := by
    rw [List.all_eq_true]
    intro v hv
    rw [List.mem_flatten] at hv
    obtain ⟨sub, hsub, hvsub⟩ := hv
    obtain ⟨qe, hqe, hsubeq⟩ := List.mem_map.mp hsub
    subst hsubeq
    obtain ⟨kv, hkv, hvv⟩ := List.mem_map.mp hvsub
    simpa [hvv] using h qe hqe kv hkv
  rw [finalizePing]
  rw [hpongs]
  simp [hflat]

theorem finalizePing_none {acc : PingServerAcc} {qe : String × PongServerAcc}
    (hqe : qe ∈ acc.pongs) {kv : String × Int} (hkv : kv ∈ qe.2.diffs)
    (hle : kv.2 ≤ 0) : finalizePing acc = none := by
  have hnone : ((fun kv : String × PongServerAcc =>
      (finalizePair kv.2).map (fun st => (kv.1, st))) qe) = none := by
    show (finalizePair qe.2).map (fun st => (qe.1, st)) = none
    rw [finalizePair_none hkv hle]
    rfl
  rw [finalizePing, traverseOpt_eq_none hqe hnone]
  rfl

theorem finalizePing_some_inv {acc : PingServerAcc} {st : PingServerStats}
    (h : finalizePing acc = some st) :
    traverseOpt (fun kv => (finalizePair kv.2).map (fun st2 => (kv.1, st2))) acc.pongs =
      some st.pongs ∧
    st.mean = (((acc.pongs.map (fun kv => kv.2.sum)).sum : ℤ) : ℚ) /
      (((acc.pongs.map (fun kv => kv.2.diffs.length)).sum : ℕ) : ℚ) := by
  rw [finalizePing] at h
  cases htrav : traverseOpt (fun kv => (finalizePair kv.2).map (fun st2 => (kv.1, st2)))
      acc.pongs with
  | none => rw [htrav] at h; simp at h
  | some pongs =>
    rw [htrav] at h
    simp only [Option.bind_some, Option.some_bind] at h
    by_cases hall : ((acc.pongs.map (fun kv => kv.2.diffs.map (fun dv => dv.2))).flatten).all
        (fun v => decide (0 < v)) = true
    · simp only [hall, if_true] at h
      replace h := Option.some.inj h
      subst h
      exact ⟨rfl, rfl⟩
    · simp only [Bool.not_eq_true] at hall
      simp [hall] at h

theorem finalizeAll_isSome_of_pos {groups : List (String × PingServerAcc)}
    (h : ∀ e ∈ groups, ∀ qe ∈ e.2.pongs, ∀ kv ∈ qe.2.diffs, (0 : ℤ) < kv.2) :
    (finalizeAll groups).isSome := by
  refine traverseOpt_isSome ?_
  intro e he
  show ((finalizePing e.2).map (fun st => (e.1, st))).isSome
  have := finalizePing_of_pos (h e he)
  obtain ⟨st, hst⟩ := Option.isSome_iff_exists.mp this
  simp [hst]

theorem finalizeAll_none {groups : List (String × PingServerAcc)}
    {e : String × PingServerAcc} (he : e ∈ groups) (hnone : finalizePing e.2 = none) :
    finalizeAll groups = none := by
  refine traverseOpt_eq_none he ?_
  show (finalizePing e.2).map (fun st => (e.1, st)) = none
  rw [hnone]
  rfl

theorem exists_of_mem_finalizeAll {groups : List (String × PingServerAcc)}
    {fs : List (String × PingServerStats)} (h : finalizeAll groups = some fs) :
    ∀ y ∈ fs, ∃ a, (y.1, a) ∈ groups ∧ finalizePing a = some y.2 := by
  intro y hy
  obtain ⟨x, hx, hfx⟩ := exists_of_mem_traverseOpt h y hy
  obtain ⟨k, a⟩ := x
  have hfx2 : (finalizePing a).map (fun st => (k, st)) = some y := hfx
  cases hfp : finalizePing a with
  | none => exact absurd hfx2 (by rw [hfp]; simp)
  | some st =>
    rw [hfp] at hfx2
    simp only [Option.map_some'] at hfx2
    replace hfx2 := Option.some.inj hfx2
    subst hfx2
    exact ⟨a, hx, hfp⟩

theorem aggregate_eq_some {samples : List Pong} {s : RoomSummary}
    (h : aggregate samples = some s) :
    ∃ fs, finalizeAll (roomGroups samples) = some fs ∧
      s = { pings := stableSort (fun kv => kv.2.median) fs,
            mean := if 0 < (stableSort (fun kv => kv.2.median) fs).length
                    then (((stableSort (fun kv => kv.2.median) fs).map
                            (fun kv => kv.2.mean)).sum) /
                      (((stableSort (fun kv => kv.2.median) fs).length : ℕ) : ℚ)
                    else 0,
            pongservers := sortStrs ((samples.map (fun p => p.pong_server)).dedup) } := by
  rw [aggregate] at h
  cases hfa : finalizeAll (roomGroups samples) with
  | none => rw [hfa] at h; simp at h
  | some fs =>
    rw [hfa] at h
    simp only [Option.map_some'] at h
    exact ⟨fs, rfl, (Option.some.inj h).symm⟩

theorem aggregate_isSome_of_pos {samples : List Pong}
    (h : ∀ p ∈ samples, (0 : ℤ) < p.receive_diff) : (aggregate samples).isSome := by
  rw [aggregate]
  have hfa : (finalizeAll (roomGroups samples)).isSome := by
    refine finalizeAll_isSome_of_pos ?_
    intro e he qe hqe kv hkv
    obtain ⟨p, hp, hd⟩ := roomGroups_value_mem samples e he qe hqe kv hkv
    rw [← hd]
    exact h p hp
  obtain ⟨fs, hfs⟩ := Option.isSome_iff_exists.mp hfa
  simp [hfs]

theorem aggregate_none_of_nonpos {samples : List Pong} (hnd : DistinctKeys samples)
    {p : Pong} (hp : p ∈ samples) (hle : p.receive_diff ≤ 0) :
    aggregate samples = none := by
  obtain ⟨a, ha, q, hq, hkv⟩ := sample_recorded hnd p hp
  have hping : finalizePing a = none :=
    finalizePing_none hq hkv hle
  rw [aggregate, finalizeAll_none (e := (p.ping_server, a)) ha hping]
  rfl

/-! ## Geometric-mean helper -/

theorem geomean_replicate {n : ℕ} {v : ℤ} (hn : 0 < n) (hv : 0 < v) :
    geomean (List.replicate n v) = (v : ℝ) := by
  have hvR : (0 : ℝ) < (v : ℝ) := by exact_mod_cast hv
  have hnR : ((n : ℝ)) ≠ 0 := Nat.cast_ne_zero.mpr (Nat.pos_iff_ne_zero.mp hn)
  rw [geomean, List.map_replicate, List.sum_replicate, List.length_replicate,
    nsmul_eq_mul, mul_div_cancel_left₀ _ hnR, Real.exp_log hvR]

/-! ## Claim theorems -/

/-- C7: for every nonempty group whose diffs all equal the same strictly
positive value `v`, the geometric mean (exp of the average of natural logs)
equals `v`; in particular a singleton group's geometric mean is its only
value. -/
theorem C7_geomean_constant (n : ℕ) (v : ℤ) (hn : 0 < n) (hv : 0 < v) :
    geomean (List.replicate n v) = (v : ℝ) ∧ geomean [v] = (v : ℝ) :=
  ⟨geomean_replicate hn hv, by
    have h1 := geomean_replicate (n := 1) (v := v) Nat.one_pos hv
    simpa using h1⟩

/-- Witness for C7 at `n = 3`, `v = 5`. -/
theorem C7_geomean_constant_witness :
    (0 < 3 ∧ (0 : ℤ) < 5) ∧
    (geomean (List.replicate 3 (5 : ℤ)) = ((5 : ℤ) : ℝ) ∧
     geomean [(5 : ℤ)] = ((5 : ℤ) : ℝ)) :=
  ⟨⟨by decide, by decide⟩, C7_geomean_constant 3 5 (by decide) (by decide)⟩

/-- C8 counterexample: the formatter renders 5000 ms, 1000 ms and -5000 ms
in the milliseconds branch (`|diff| < 10_000`), not as seconds, so three of
the claim's four example outputs are wrong on the code. -/
theorem C8_counterexample :
    prettify_diff 5000 ≠ "5 seconds" ∧ prettify_diff 1000 ≠ "1 second" ∧
    prettify_diff (-5000) ≠ "-5.0 seconds" := by
  refine ⟨?_, ?_, ?_⟩ <;> decide

/-- C8 (amended): the formatter's actual outputs at the claimed inputs —
values under the 10-second threshold render in milliseconds
(`"5000 ms"`, `"1000 ms"`, `"-5000 ms"`, sign preserved), and
`format(65000)` is `"1 minute and 5 seconds"` as claimed. -/
theorem C8_formatter_examples :
    prettify_diff 5000 = "5000 ms" ∧ prettify_diff 1000 = "1000 ms" ∧
    prettify_diff 65000 = "1 minute and 5 seconds" ∧
    prettify_diff (-5000) = "-5000 ms" := by
  refine ⟨?_, ?_, ?_, ?_⟩ <;> decide

/-- C9: the day branch formats `diff = 90_061_000` (1 day, 1 hour, 1 minute,
1 second, obtained by the successive divmod decomposition and pluralized as
claimed) but omits the separating space after the hour component's comma —
the f-string continuation in the source drops it — so the output differs
from the claimed shape exactly there. -/
theorem C9_day_branch_missing_space :
    prettify_diff 90061000 = "1 day, 1 hour,1 minute and 1 second" ∧
    prettify_diff 90061000 ≠ "1 day, 1 hour, 1 minute and 1 second" := by
  refine ⟨?_, ?_⟩ <;> decide

/-- C1: the room-level `"mean"` of the summary equals the unweighted
arithmetic mean of the per-ping_server means (each ping_server counts
once, regardless of its sample count), is `0` when there are no
ping_server groups, and the empty input aggregates successfully (no
division-by-zero): it yields the summary with no groups and mean `0`. -/
theorem C1_room_mean (samples : List Pong) (s : RoomSummary)
    (h : aggregate samples = some s) :
    (s.pings ≠ [] →
      s.mean = ((s.pings.map (fun kv => kv.2.mean)).sum) / ((s.pings.length : ℕ) : ℚ)) ∧
    (s.pings = [] → s.mean = 0) ∧
    aggregate ([] : List Pong) = some { pings := [], mean := 0, pongservers := [] } := by
  obtain ⟨fs, hfs, hs⟩ := aggregate_eq_some h
  subst hs
  refine ⟨?_, ?_, by decide⟩
  · intro hne
    dsimp only at hne ⊢
    rw [if_pos (List.length_pos.mpr hne)]
  · intro hemp
    dsimp only at hemp ⊢
    rw [hemp]
    simp

/-- Witness for C1 at the one-sample input `[pongA]`. -/
theorem C1_room_mean_witness :
    aggregate [pongA] = some summaryA ∧
    ((summaryA.pings ≠ [] →
       summaryA.mean =
         ((summaryA.pings.map (fun kv => kv.2.mean)).sum) /
           ((summaryA.pings.length : ℕ) : ℚ)) ∧
     (summaryA.pings = [] → summaryA.mean = 0) ∧
     aggregate ([] : List Pong) = some { pings := [], mean := 0, pongservers := [] }) :=
  ⟨by decide, C1_room_mean [pongA] summaryA (by decide)⟩

/-- C3 counterexample: the sequence `[pongC, pongB]` contains a sample with
`receive_diff = -1 ≤ 0`, yet aggregation succeeds, because the second
sample shares the grouping key and overwrites the recorded diff
(last-write-wins) before any geometric mean is taken. -/
theorem C3_counterexample :
    (∃ p ∈ [pongC, pongB], p.receive_diff ≤ 0) ∧
    (aggregate [pongC, pongB]).isSome = true := by
  refine ⟨?_, ?_⟩ <;> decide

/-- C3 (amended): on a sample sequence satisfying the store's uniqueness
invariant (pairwise-distinct grouping keys, so no diff is overwritten), one
sample with a non-positive `receive_diff` makes the whole aggregation fail
(`none`, modelling the `ValueError` from `math.log` escaping
`get_room_data`) — no partial summary, no silent NaN/zero. -/
theorem C3_nonpositive_fails (samples : List Pong) (hnd : DistinctKeys samples)
    (p : Pong) (hp : p ∈ samples) (hle : p.receive_diff ≤ 0) :
    aggregate samples = none :=
  aggregate_none_of_nonpos hnd hp hle

/-- Witness for C3 at the one-sample input `[pongC]`. -/
theorem C3_nonpositive_fails_witness :
    DistinctKeys [pongC] ∧ pongC ∈ [pongC] ∧ pongC.receive_diff ≤ 0 ∧
    aggregate [pongC] = none :=
  ⟨by decide, by decide, by decide,
   C3_nonpositive_fails [pongC] (by decide) pongC (by decide) (by decide)⟩

/-- C10: `get_room_data` always queries with the default diff bounds
`min_diff = 10` and `max_diff = 10 * MINUTE = 600000`, so every sample the
aggregation sees has `10 ≤ receive_diff ≤ 600000`; aggregation through
this path therefore never observes a non-positive diff and never fails
(the `math.log` domain-error branch is unreachable), and samples outside
the bounds are silently excluded. -/
theorem C10_default_diff_bounds (store : List Pong) (room : String)
    (now min_age max_age : Int) :
    (∀ p ∈ iter_pongs store room now max_age min_age (10 * MINUTE) 10,
       10 ≤ p.receive_diff ∧ p.receive_diff ≤ 600000) ∧
    (get_room_data store room now min_age max_age).isSome ∧
    (∀ p ∈ store, p.receive_diff < 10 ∨ 600000 < p.receive_diff →
       p ∉ iter_pongs store room now max_age min_age (10 * MINUTE) 10) := by
  have hbounds : ∀ p ∈ iter_pongs store room now max_age min_age (10 * MINUTE) 10,
      10 ≤ p.receive_diff ∧ p.receive_diff ≤ 600000 := by
    intro p hp
    rw [iter_pongs, List.mem_filter] at hp
    have hpred := of_decide_eq_true hp.2
    refine ⟨hpred.2.2.2.2, ?_⟩
    have h600 : (10 * MINUTE : ℤ) = 600000 := by decide
    rw [← h600]
    exact hpred.2.2.2.1
  refine ⟨hbounds, ?_, ?_⟩
  · rw [get_room_data]
    refine aggregate_isSome_of_pos ?_
    intro p hp
    have h10 := (hbounds p hp).1
    omega
  · intro p _ hout hin
    have hb := hbounds p hin
    omega

/-- Witness for C10: `rowB` (diff 5) is in the store but below `min_diff`,
so it is excluded, and the room query still succeeds. -/
theorem C10_default_diff_bounds_witness :
    (rowB ∈ [rowA, rowB] ∧ rowB.receive_diff < 10) ∧
    rowB ∉ iter_pongs [rowA, rowB] "a" 0 WEEK 0 (10 * MINUTE) 10 ∧
    (get_room_data [rowA, rowB] "a" 0 0 WEEK).isSome :=
  ⟨⟨by decide, by decide⟩,
   (C10_default_diff_bounds [rowA, rowB] "a" 0 0 WEEK).2.2 rowB (by decide)
     (Or.inl (by decide)),
   (C10_default_diff_bounds [rowA, rowB] "a" 0 0 WEEK).2.1⟩

/-- Success condition of the tombstone UPDATE: when the replacement room
differs from the old one, the store's primary keys are duplicate-free (as
the table guarantees) and no old-room row shares `(ping_id, pong_server)`
with an existing new-room row, the reassigned rows keep their primary keys
duplicate-free, so the statement commits. -/
theorem rewrite_room_success {store : List Pong} {A B : String}
    (hnd : (store.map pkey).Nodup)
    (hok : ∀ p ∈ store, p.room_id = A → ∀ q ∈ store, q.room_id = B →
      ¬(q.ping_id = p.ping_id ∧ q.pong_server = p.pong_server)) :
    ((store.map (fun p => if p.room_id = A then { p with room_id := B } else p)).map
      pkey).Nodup ∧
    rewrite_room store A B =
      some (store.map (fun p => if p.room_id = A then { p with room_id := B } else p)) := by
  have hnd2 : store.Pairwise (fun a b => pkey a ≠ pkey b) := List.pairwise_map.mp hnd
  have hnd3 : store.Pairwise (fun a b =>
      pkey (if a.room_id = A then { a with room_id := B } else a) ≠
      pkey (if b.room_id = A then { b with room_id := B } else b)) := by
    refine hnd2.imp_of_mem ?_
    intro a b ha hb hne heq
    by_cases haA : a.room_id = A <;> by_cases hbA : b.room_id = A
    · rw [if_pos haA, if_pos hbA] at heq
      simp only [pkey, Prod.mk.injEq] at heq
      refine hne ?_
      simp only [pkey, Prod.mk.injEq]
      exact ⟨haA.trans hbA.symm, heq.2.1, heq.2.2⟩
    · rw [if_pos haA, if_neg hbA] at heq
      simp only [pkey, Prod.mk.injEq] at heq
      exact hok a ha haA b hb heq.1.symm ⟨heq.2.1.symm, heq.2.2.symm⟩
    · rw [if_neg haA, if_pos hbA] at heq
      simp only [pkey, Prod.mk.injEq] at heq
      exact hok b hb hbA a ha heq.1 ⟨heq.2.1, heq.2.2⟩
    · rw [if_neg haA, if_neg hbA] at heq
      exact hne heq
  have hnodup : ((store.map
      (fun p => if p.room_id = A then { p with room_id := B } else p)).map pkey).Nodup := by
    rw [List.map_map]
    exact List.pairwise_map.mpr hnd3
  refine ⟨hnodup, ?_⟩
  show (if ((store.map
      (fun p => if p.room_id = A then { p with room_id := B } else p)).map pkey).Nodup
    then some (store.map (fun p => if p.room_id = A then { p with room_id := B } else p))
    else none) =
    some (store.map (fun p => if p.room_id = A then { p with room_id := B } else p))
  rw [if_pos hnodup]

/-- C4 counterexample: the claim fails without the implicit side conditions
on the tombstone — (1) a replacement room equal to the old room (the
UPDATE is then the identity), (2) an empty replacement id (falsy in
Python, so the handler returns without rewriting), and (3) a store where a
migrated row would collide with an existing replacement-room row on the
primary key `(room_id, ping_id, pong_server)`, making the UPDATE abort
with an integrity error and leave the store unchanged — in all three cases
room `"a"` stays scannable after the tombstone. -/
theorem C4_counterexample :
    iter_pongs (tombstone [rowA] "a" (some "a")) "a" 0 WEEK 0 600000 10 ≠ [] ∧
    iter_pongs (tombstone [rowA] "a" (some "")) "a" 0 WEEK 0 600000 10 ≠ [] ∧
    (rewrite_room [rowA, rowBcoll] "a" "b" = none ∧
     tombstone [rowA, rowBcoll] "a" (some "b") = [rowA, rowBcoll] ∧
     iter_pongs (tombstone [rowA, rowBcoll] "a" (some "b")) "a" 0 WEEK 0 600000 10 ≠ []) := by
  refine ⟨?_, ?_, ?_, ?_, ?_⟩ <;> decide

/-- C4 (amended): for a tombstone whose replacement room `B` is non-empty
and differs from the old room `A`, on a store whose primary keys
`(room_id, ping_id, pong_server)` are duplicate-free (as the table
guarantees) and where no `A` row shares `(ping_id, pong_server)` with an
existing `B` row (otherwise the UPDATE aborts with an integrity error and
changes nothing), the UPDATE commits: every sample of `A` is re-stored
under `B` with all other fields unchanged and samples of other rooms are
untouched; any scan of `A` afterwards is empty; a scan of `B` returns only
rows with `room_id = B`, each either a pre-existing `B` row or a migrated
`A` row (and every in-window `A` row does appear); a second identical
tombstone is a no-op; an absent replacement room leaves the store
unchanged. -/
theorem C4_room_migration (store : List Pong) (A B : String) (hB : B ≠ "") (hAB : A ≠ B)
    (hnd : (store.map pkey).Nodup)
    (hok : ∀ p ∈ store, p.room_id = A → ∀ q ∈ store, q.room_id = B →
      ¬(q.ping_id = p.ping_id ∧ q.pong_server = p.pong_server))
    (now max_age min_age max_diff min_diff : Int) :
    rewrite_room store A B =
      some (store.map (fun p => if p.room_id = A then { p with room_id := B } else p)) ∧
    (∀ p ∈ store, p.room_id = A → { p with room_id := B } ∈ tombstone store A (some B)) ∧
    (∀ p ∈ store, p.room_id ≠ A → p ∈ tombstone store A (some B)) ∧
    iter_pongs (tombstone store A (some B)) A now max_age min_age max_diff min_diff = [] ∧
    (∀ q ∈ iter_pongs (tombstone store A (some B)) B now max_age min_age max_diff min_diff,
       q.room_id = B ∧
       (q ∈ store ∨ ∃ p ∈ store, p.room_id = A ∧ q = { p with room_id := B })) ∧
    (∀ p ∈ store, p.room_id = A →
       p.pong_timestamp ≤ now - min_age → now - max_age ≤ p.pong_timestamp →
       p.receive_diff ≤ max_diff → min_diff ≤ p.receive_diff →
       { p with room_id := B } ∈
         iter_pongs (tombstone store A (some B)) B now max_age min_age max_diff min_diff) ∧
    tombstone (tombstone store A (some B)) A (some B) = tombstone store A (some B) ∧
    tombstone store A none = store := by
  obtain ⟨hnodup, hsucc⟩ := rewrite_room_success hnd hok
  have htb : tombstone store A (some B) =
      store.map (fun p => if p.room_id = A then { p with room_id := B } else p) := by
    simp only [tombstone, if_neg hB, hsucc]
  refine ⟨hsucc, ?_, ?_, ?_, ?_, ?_, ?_, rfl⟩
  · intro p hp hA
    rw [htb]
    have := List.mem_map_of_mem
      (fun p : Pong => if p.room_id = A then { p with room_id := B } else p) hp
    simpa [hA] using this
  · intro p hp hA
    rw [htb]
    have := List.mem_map_of_mem
      (fun p : Pong => if p.room_id = A then { p with room_id := B } else p) hp
    simpa [hA] using this
  · rw [htb, iter_pongs, List.filter_eq_nil_iff]
    intro q hq
    rw [List.mem_map] at hq
    obtain ⟨p, _, hpq⟩ := hq
    subst hpq
    by_cases hA : p.room_id = A
    · simp [hA, Ne.symm hAB]
    · simp [hA]
  · intro q hq
    rw [iter_pongs, List.mem_filter] at hq
    obtain ⟨hqmem, hqpred⟩ := hq
    have hpred := of_decide_eq_true hqpred
    refine ⟨hpred.1, ?_⟩
    rw [htb, List.mem_map] at hqmem
    obtain ⟨p, hp, hpq⟩ := hqmem
    by_cases hA : p.room_id = A
    · rw [if_pos hA] at hpq
      exact Or.inr ⟨p, hp, hA, hpq.symm⟩
    · rw [if_neg hA] at hpq
      subst hpq
      exact Or.inl hp
  · intro p hp hA ht1 ht2 hd1 hd2
    rw [iter_pongs, List.mem_filter]
    constructor
    · rw [htb]
      have := List.mem_map_of_mem
        (fun p : Pong => if p.room_id = A then { p with room_id := B } else p) hp
      simpa [hA] using this
    · exact decide_eq_true (by exact ⟨rfl, ht1, ht2, hd1, hd2⟩)
  · rw [htb]
    have hid : (store.map
        (fun p => if p.room_id = A then { p with room_id := B } else p)).map
          (fun p => if p.room_id = A then { p with room_id := B } else p) =
        store.map (fun p => if p.room_id = A then { p with room_id := B } else p) := by
      have hpt : ∀ q ∈ store.map
          (fun p => if p.room_id = A then { p with room_id := B } else p),
          (fun p : Pong => if p.room_id = A then { p with room_id := B } else p) q = q := by
        intro q hq
        obtain ⟨p, _, hpq⟩ := List.mem_map.mp hq
        subst hpq
        by_cases hA : p.room_id = A
        · simp [hA, Ne.symm hAB]
        · simp [hA]
      rw [List.map_congr_left hpt]
      simp
    have hrw2 : rewrite_room (store.map
        (fun p => if p.room_id = A then { p with room_id := B } else p)) A B =
        some (store.map (fun p => if p.room_id = A then { p with room_id := B } else p)) := by
      show (if (((store.map
          (fun p => if p.room_id = A then { p with room_id := B } else p)).map
            (fun p => if p.room_id = A then { p with room_id := B } else p)).map pkey).Nodup
        then some ((store.map
          (fun p => if p.room_id = A then { p with room_id := B } else p)).map
            (fun p => if p.room_id = A then { p with room_id := B } else p))
        else none) =
        some (store.map (fun p => if p.room_id = A then { p with room_id := B } else p))
      rw [hid, if_pos hnodup]
    simp only [tombstone, if_neg hB, hrw2]

/-- Witness for C4 at the one-row store `[rowA]`, migrating `"a"` to
`"b"` (no pre-existing `"b"` row, so no primary-key collision). -/
theorem C4_room_migration_witness :
    (("b" : String) ≠ "" ∧ ("a" : String) ≠ "b" ∧
     (([rowA].map pkey).Nodup ∧
      ∀ p ∈ [rowA], p.room_id = "a" → ∀ q ∈ [rowA], q.room_id = "b" →
        ¬(q.ping_id = p.ping_id ∧ q.pong_server = p.pong_server))) ∧
    rewrite_room [rowA] "a" "b" =
      some ([rowA].map (fun p => if p.room_id = "a" then { p with room_id := "b" } else p)) ∧
    iter_pongs (tombstone [rowA] "a" (some "b")) "a" 0 WEEK 0 600000 10 = [] ∧
    { rowA with room_id := "b" } ∈
      iter_pongs (tombstone [rowA] "a" (some "b")) "b" 0 WEEK 0 600000 10 ∧
    tombstone (tombstone [rowA] "a" (some "b")) "a" (some "b") =
      tombstone [rowA] "a" (some "b") ∧
    tombstone [rowA] "a" none = [rowA] :=
  ⟨⟨by decide, by decide, by decide, by decide⟩,
   (C4_room_migration [rowA] "a" "b" (by decide) (by decide) (by decide) (by decide)
     0 WEEK 0 600000 10).1,
   (C4_room_migration [rowA] "a" "b" (by decide) (by decide) (by decide) (by decide)
     0 WEEK 0 600000 10).2.2.2.1,
   (C4_room_migration [rowA] "a" "b" (by decide) (by decide) (by decide) (by decide)
     0 WEEK 0 600000 10).2.2.2.2.2.1
     rowA (by decide) (by decide) (by decide) (by decide) (by decide) (by decide),
   (C4_room_migration [rowA] "a" "b" (by decide) (by decide) (by decide) (by decide)
     0 WEEK 0 600000 10).2.2.2.2.2.2.1,
   (C4_room_migration [rowA] "a" "b" (by decide) (by decide) (by decide) (by decide)
     0 WEEK 0 600000 10).2.2.2.2.2.2.2⟩

/-- C6: window resolution falls back silently to the defaults `min_age = 0`
and `max_age = WEEK` for missing or non-numeric inputs; whenever
`0 < max_delta` and the resolved span exceeds it, `max_age` is tightened to
exactly `min_age + max_delta`; the resolved `max_age` never exceeds the
requested one (never widening) and the resolved span never exceeds a
positive `max_delta`; and the resolved window bounds a scan exactly by
`now - max_age ≤ pong_timestamp ≤ now - min_age` (together with the diff
bounds and the room filter). -/
theorem C6_window_resolution (maxP minP : Option Int) (d now : Int)
    (store : List Pong) (room : String) (max_diff min_diff : Int) :
    _get_min_max_age none none WEEK = { min_age := 0, max_age := WEEK } ∧
    (_get_min_max_age maxP none d).min_age = 0 ∧
    (_get_min_max_age none minP d).min_age = parse_age minP 0 ∧
    (0 < d → d < parse_age maxP WEEK - parse_age minP 0 →
      _get_min_max_age maxP minP d =
        { min_age := parse_age minP 0, max_age := parse_age minP 0 + d }) ∧
    (_get_min_max_age maxP minP d).max_age ≤ parse_age maxP WEEK ∧
    (0 < d →
      (_get_min_max_age maxP minP d).max_age - (_get_min_max_age maxP minP d).min_age ≤ d) ∧
    (∀ p, p ∈ iter_pongs store room now (_get_min_max_age maxP minP d).max_age
        (_get_min_max_age maxP minP d).min_age max_diff min_diff ↔
      (p ∈ store ∧ p.room_id = room ∧
       p.pong_timestamp ≤ now - (_get_min_max_age maxP minP d).min_age ∧
       now - (_get_min_max_age maxP minP d).max_age ≤ p.pong_timestamp ∧
       p.receive_diff ≤ max_diff ∧ min_diff ≤ p.receive_diff)) := by
  refine ⟨by decide, rfl, rfl, ?_, ?_, ?_, ?_⟩
  · intro hd hspan
    have hc : 0 < d ∧ d < parse_age maxP WEEK - parse_age minP 0 := ⟨hd, hspan⟩
    rw [_get_min_max_age]
    rw [if_pos hc]
  · rw [_get_min_max_age]
    dsimp only
    by_cases hc : 0 < d ∧ d < parse_age maxP WEEK - parse_age minP 0
    · rw [if_pos hc]
      omega
    · rw [if_neg hc]
  · intro hd
    rw [_get_min_max_age]
    dsimp only
    by_cases hc : 0 < d ∧ d < parse_age maxP WEEK - parse_age minP 0
    · rw [if_pos hc]
      omega
    · rw [if_neg hc]
      omega
  · intro p
    rw [iter_pongs, List.mem_filter]
    constructor
    · intro h
      have hpred := of_decide_eq_true h.2
      exact ⟨h.1, hpred⟩
    · intro h
      exact ⟨h.1, decide_eq_true ⟨h.2.1, h.2.2.1, h.2.2.2.1, h.2.2.2.2.1, h.2.2.2.2.2⟩⟩

/-- Witness for C6 at `max_age = 700000 s`, `min_age = 5 s`,
`max_delta = 3000 ms`: the clamp fires and tightens `max_age` to
`min_age + max_delta = 8000 ms`. -/
theorem C6_window_resolution_witness :
    ((0 : ℤ) < 3000 ∧
     (3000 : ℤ) < parse_age (some 700000) WEEK - parse_age (some 5) 0) ∧
    _get_min_max_age (some 700000) (some 5) 3000 =
      { min_age := parse_age (some 5) 0, max_age := parse_age (some 5) 0 + 3000 } ∧
    _get_min_max_age none none WEEK = { min_age := 0, max_age := WEEK } :=
  ⟨⟨by decide, by decide⟩,
   ((C6_window_resolution (some 700000) (some 5) 3000 0 [] "" 0 0).2.2.2.1
     (by decide) (by decide)),
   (C6_window_resolution (some 700000) (some 5) 3000 0 [] "" 0 0).1⟩

/-- C2 counterexample: two samples sharing the grouping key — diffs 5 then
7 — leave recorded diffs `{"i": 7}` (count 1, sum 7) but the group's mean
is computed as `12` because the `"sum"` accumulator also counted the
overwritten 5; so the claim's "mean = sum of recorded diffs / count" fails
as stated on sequences with repeated keys. -/
theorem C2_counterexample :
    aggregate [pongA, pongB] = some
      { pings := [("P", { pongs := [("Q", { diffs := [("i", 7)], mean := 12, median := 7 })],
                          pings := ["i"], mean := 12, median := 7 })],
        mean := 12, pongservers := ["Q"] } ∧
    (12 : ℚ) ≠ ((7 : ℤ) : ℚ) / ((1 : ℕ) : ℚ) := by
  refine ⟨by decide, by decide⟩

/-- C2 (amended): on a sample sequence satisfying the store's uniqueness
invariant (pairwise-distinct grouping keys), every mean in the summary is
the sum of the recorded diffs divided by their count, at both levels: each
`(ping_server, pong_server)` pair group, and each ping_server's union of
its pair groups. -/
theorem C2_group_means (samples : List Pong) (hnd : DistinctKeys samples)
    (s : RoomSummary) (h : aggregate samples = some s) :
    ∀ e ∈ s.pings,
      e.2.mean = ((pingRecordedSum e.2 : ℤ) : ℚ) / ((pingRecordedLen e.2 : ℕ) : ℚ) ∧
      ∀ qe ∈ e.2.pongs,
        qe.2.mean = ((recordedSum qe.2 : ℤ) : ℚ) / ((recordedLen qe.2 : ℕ) : ℚ) := by
  obtain ⟨fs, hfs, hs⟩ := aggregate_eq_some h
  subst hs
  intro e he
  rw [show ({ pings := stableSort (fun kv => kv.2.median) fs,
              mean := if 0 < (stableSort (fun kv => kv.2.median) fs).length
                      then (((stableSort (fun kv => kv.2.median) fs).map
                              (fun kv => kv.2.mean)).sum) /
                        (((stableSort (fun kv => kv.2.median) fs).length : ℕ) : ℚ)
                      else 0,
              pongservers := sortStrs ((samples.map (fun p => p.pong_server)).dedup) } :
      RoomSummary).pings = stableSort (fun kv => kv.2.median) fs from rfl,
    mem_stableSort] at he
  obtain ⟨a, ha, hping⟩ := exists_of_mem_finalizeAll hfs e he
  obtain ⟨htrav, hmean⟩ := finalizePing_some_inv hping
  have hrec := pair_recorded hnd (e.1, a) ha
  constructor
  · rw [hmean]
    have hsum : e.2.pongs.map (fun kv => recordedSum kv.2) =
        a.pongs.map (fun kv => (kv.2.diffs.map (fun dv => dv.2)).sum) := by
      refine traverseOpt_map_eq htrav _ _ ?_
      intro x y hxy
      cases hfp : finalizePair x.2 with
      | none => rw [hfp] at hxy; exact absurd hxy (by simp)
      | some st =>
        rw [hfp] at hxy
        simp only [Option.map_some'] at hxy
        replace hxy := Option.some.inj hxy
        subst hxy
        show recordedSum st = (x.2.diffs.map (fun dv => dv.2)).sum
        rw [recordedSum, (finalizePair_some_inv hfp).1]
    have hlen : e.2.pongs.map (fun kv => recordedLen kv.2) =
        a.pongs.map (fun kv => kv.2.diffs.length) := by
      refine traverseOpt_map_eq htrav _ _ ?_
      intro x y hxy
      cases hfp : finalizePair x.2 with
      | none => rw [hfp] at hxy; exact absurd hxy (by simp)
      | some st =>
        rw [hfp] at hxy
        simp only [Option.map_some'] at hxy
        replace hxy := Option.some.inj hxy
        subst hxy
        show recordedLen st = x.2.diffs.length
        rw [recordedLen, (finalizePair_some_inv hfp).1]
    have hsum2 : a.pongs.map (fun kv => (kv.2.diffs.map (fun dv => dv.2)).sum) =
        a.pongs.map (fun kv => kv.2.sum) := by
      refine List.map_congr_left ?_
      intro qe hqe
      exact ((hrec qe hqe).1).symm
    rw [pingRecordedSum, pingRecordedLen, hsum, hlen, hsum2]
  · intro qe hqe
    obtain ⟨x, hx, hxy⟩ := exists_of_mem_traverseOpt htrav qe hqe
    cases hfp : finalizePair x.2 with
    | none => rw [hfp] at hxy; exact absurd hxy (by simp)
    | some st =>
      rw [hfp] at hxy
      simp only [Option.map_some'] at hxy
      replace hxy := Option.some.inj hxy
      subst hxy
      obtain ⟨hdiffs, hmean2⟩ := finalizePair_some_inv hfp
      have hq := hrec x hx
      show st.mean = ((recordedSum st : ℤ) : ℚ) / ((recordedLen st : ℕ) : ℚ)
      have h1 : recordedSum st = x.2.sum := by
        rw [recordedSum, hdiffs, ← hq.1]
      have h2 : recordedLen st = x.2.diffs.length := by
        rw [recordedLen, hdiffs]
      rw [hmean2, h1, h2]

/-- Witness for C2 at the two-server input `[pongA, pongD]`. -/
theorem C2_group_means_witness :
    DistinctKeys [pongA, pongD] ∧ aggregate [pongA, pongD] = some summaryAD ∧
    ∀ e ∈ summaryAD.pings,
      e.2.mean = ((pingRecordedSum e.2 : ℤ) : ℚ) / ((pingRecordedLen e.2 : ℕ) : ℚ) ∧
      ∀ qe ∈ e.2.pongs,
        qe.2.mean = ((recordedSum qe.2 : ℤ) : ℚ) / ((recordedLen qe.2 : ℕ) : ℚ) :=
  ⟨by decide, by decide, C2_group_means [pongA, pongD] (by decide) summaryAD (by decide)⟩

/-- C5: the per-ping_server entries of the summary are sorted by ascending
median (so the medians read off the result are monotonically
non-decreasing), and the sort is stable: for any median value, the entries
carrying it appear in the same order as in the finalized pre-sort list,
whose order is the ping_servers' first-encounter order in the input.
Determinism is inherent: the embedding is a pure function of the input. -/
theorem C5_median_sort (samples : List Pong) (s : RoomSummary)
    (h : aggregate samples = some s) :
    s.pings.Pairwise (fun a b => a.2.median ≤ b.2.median) ∧
    ∀ fs, finalizeAll (roomGroups samples) = some fs →
      ∀ q : ℚ, s.pings.filter (fun kv => decide (kv.2.median = q)) =
        fs.filter (fun kv => decide (kv.2.median = q)) := by
  obtain ⟨fs0, hfs0, hs⟩ := aggregate_eq_some h
  subst hs
  constructor
  · exact stableSort_sorted (fun kv => kv.2.median) fs0
  · intro fs hfs q
    rw [hfs0] at hfs
    replace hfs := Option.some.inj hfs
    subst hfs
    exact stableSort_filter (fun kv => kv.2.median) fs0 q

/-- Witness for C5 at `[pongA, pongD]` (medians 5 and 40, stable order
`P` then `S`). -/
theorem C5_median_sort_witness :
    aggregate [pongA, pongD] = some summaryAD ∧
    summaryAD.pings.Pairwise (fun a b => a.2.median ≤ b.2.median) ∧
    finalizeAll (roomGroups [pongA, pongD]) = some statsAD ∧
    summaryAD.pings.filter (fun kv => decide (kv.2.median = 5)) =
      statsAD.filter (fun kv => decide (kv.2.median = 5)) :=
  ⟨by decide, (C5_median_sort [pongA, pongD] summaryAD (by decide)).1, by decide,
   (C5_median_sort [pongA, pongD] summaryAD (by decide)).2 statsAD (by decide) 5⟩

end PingStat
